import Mathlib

/-!
# Verification of the veracity propositional-logic toolkit

A shallow embedding of `veracity/veracity.py`: the tokeniser and the
shunting-yard parser, the two-phase simplifier (`reduce_constexprs` and
`rewrite`, whose in-place field mutation is modelled by threading the updated
tree through every call), the constraint-propagation solver `_solve_expr`, and
`stringify`.  Python exceptions (`IndexError` from popping an empty stack,
`KeyError` from looking an unguarded left parenthesis up in the handler table,
`RecursionError` from `rewrite` calling itself on an unchanged node) are
modelled with `Except` and `Option` result types.
-/

namespace Veracity

/-- Decidable equality of `Except` results, for computing with the models. -/
instance instDecEqExcept {ε α : Type} [DecidableEq ε] [DecidableEq α] :
    DecidableEq (Except ε α) := fun x y =>
  match x, y with
  | .error a, .error b =>
    match decEq a b with
    | isTrue h => isTrue (by rw [h])
    | isFalse h => isFalse (by intro hc; cases hc; exact h rfl)
  | .ok a, .ok b =>
    match decEq a b with
    | isTrue h => isTrue (by rw [h])
    | isFalse h => isFalse (by intro hc; cases hc; exact h rfl)
  | .error _, .ok _ => isFalse (by intro hc; cases hc)
  | .ok _, .error _ => isFalse (by intro hc; cases hc)

/--
The expression tree of the source.  The dataclasses `Variable`, `Conjunction`,
`Disjunction`, `Implication` (whose first field is `conclusion`, matching the
dataclass declaration order) and `Negation` are the parser's node kinds; the
simplifier stores Python booleans into `Disjunction` fields in place, so the
embedded type also carries a `Const` constructor for those boolean values.
(The dataclass `Parentheses` in the source is never instantiated by any code
path and is omitted.)
-/
inductive Expr where
  | Variable (identifier : String)
  | Conjunction (lhs rhs : Expr)
  | Disjunction (lhs rhs : Expr)
  | Implication (conclusion premise : Expr)
  | Negation (operand : Expr)
  | Const (b : Bool)
  deriving DecidableEq, Repr

/-- The operator tokens that can sit on the parser's operator stack.
`RIGHT_PAREN` is consumed immediately and never pushed, so it is not here. -/
inductive OpT where
  | andT
  | orT
  | impT
  | notT
  | lparT
  deriving DecidableEq, Repr

/-- A token of the lexer: a `Variable` leaf, an operator, or `)`. -/
inductive Tok where
  | varT (identifier : String)
  | opT (o : OpT)
  | rparT
  deriving DecidableEq, Repr

/-- One character of the proposition, classified as in `Parser.tokenise`:
the six reserved glyphs become tokens, alphabetic characters become
single-character `Variable`s, everything else is dropped.  (`Char.isAlpha`
models Python's `str.isalpha` on the ASCII letters used throughout.) -/
def tokChar (c : Char) : Option Tok :=
  if c = '∧' then some (.opT .andT)
  else if c = '∨' then some (.opT .orT)
  else if c = '→' then some (.opT .impT)
  else if c = '¬' then some (.opT .notT)
  else if c = '(' then some (.opT .lparT)
  else if c = ')' then some .rparT
  else if c.isAlpha then some (.varT (String.singleton c))
  else none

/-- `Parser.tokenise`: classify every character, dropping invalid ones. -/
def tokenise (s : String) : List Tok :=
  s.toList.filterMap tokChar

/-- The `Parser.precedence` table.  Python's dict has no entry for
`LEFT_PAREN`; every lookup is guarded by a parenthesis check first, so the
value returned for `lparT` here is never observed. -/
def prec : OpT → Nat
  | .andT => 30
  | .orT => 20
  | .impT => 10
  | .notT => 40
  | .lparT => 0

/-- The Python exceptions the parser can raise: `IndexError` from `pop()` on
an empty list, `KeyError` from `handlers[Token.LEFT_PAREN]`. -/
inductive PErr where
  | indexError
  | keyError
  deriving DecidableEq, Repr

/-- The operand (value) stack; its head is the top. -/
abbrev VStack := List Expr

/-- The operator stack; its head is the top. -/
abbrev OStack := List OpT

/--
The `handlers` table applied to the value stack: each binary operator pops two
operands (`lhs` is popped first, i.e. the most recently pushed), negation pops
one.  `none` is Python's `IndexError` from popping an empty list.  The table
has no entry for `lparT`; the one unguarded lookup (in the final reduction
loop) is modelled there as `KeyError` before this function is consulted.
-/
def applyOp : OpT → VStack → Option VStack
  | .andT, a :: b :: vs => some (.Conjunction a b :: vs)
  | .orT, a :: b :: vs => some (.Disjunction a b :: vs)
  | .impT, a :: b :: vs => some (.Implication a b :: vs)
  | .notT, a :: vs => some (.Negation a :: vs)
  | _, _ => none

/-- The `RIGHT_PAREN` branch: pop and reduce operators until a `LEFT_PAREN`
is on top, then discard it.  Reaching the bottom of the stack means the final
`operators.pop()` raises `IndexError`. -/
def reduceUntilLParen : OStack → VStack → Except PErr (OStack × VStack)
  | [], _ => .error .indexError
  | o :: ops, vs =>
    if o = .lparT then .ok (ops, vs)
    else
      match applyOp o vs with
      | none => .error .indexError
      | some vs2 => reduceUntilLParen ops vs2

/-- The while-loop of the generic operator branch: reduce while the top of the
operator stack is not a parenthesis and has strictly greater precedence than
the incoming token (precedence `p`). -/
def reduceWhileHigher (p : Nat) : OStack → VStack → Except PErr (OStack × VStack)
  | [], vs => .ok ([], vs)
  | o :: ops, vs =>
    if o = .lparT then .ok (o :: ops, vs)
    else if prec o > p then
      match applyOp o vs with
      | none => .error .indexError
      | some vs2 => reduceWhileHigher p ops vs2
    else .ok (o :: ops, vs)

/-- The final loop of `_parse_internal`: reduce every remaining operator.  A
remaining `LEFT_PAREN` hits `handlers[top]` and raises `KeyError`. -/
def finalReduce : OStack → VStack → Except PErr VStack
  | [], vs => .ok vs
  | o :: ops, vs =>
    if o = .lparT then .error .keyError
    else
      match applyOp o vs with
      | none => .error .indexError
      | some vs2 => finalReduce ops vs2

/-- One iteration of the token loop of `_parse_internal`. -/
def step (st : OStack × VStack) : Tok → Except PErr (OStack × VStack)
  | .varT s => .ok (st.1, .Variable s :: st.2)
  | .opT .lparT => .ok (.lparT :: st.1, st.2)
  | .rparT => reduceUntilLParen st.1 st.2
  | .opT o => do
    let (ops2, vs2) ← reduceWhileHigher (prec o) st.1 st.2
    .ok (o :: ops2, vs2)

/-- The token loop of `_parse_internal`. -/
def processToks : List Tok → OStack × VStack → Except PErr (OStack × VStack)
  | [], st => .ok st
  | tk :: rest, st => do
    processToks rest (← step st tk)

/-- `_parse_internal`: run the token loop from empty stacks, reduce what is
left, and return `peek(values)` — the top of the operand stack, or `none`
(Python `None`) when it is empty. -/
def parseToks (ts : List Tok) : Except PErr (Option Expr) := do
  let (ops, vs) ← processToks ts ([], [])
  let vs2 ← finalReduce ops vs
  .ok vs2.head?

/-- `Parser(text).parse()`: tokenise, then parse. -/
def parseStr (s : String) : Except PErr (Option Expr) :=
  parseToks (tokenise s)

/-! ## The simplifier

`simplify` runs `reduce_constexprs` and then `rewrite` over the same tree
object.  Both walk the tree with `isinstance` dispatch; `reduce_constexprs`
threads a shared `mapping` dict of forced variable values and overwrites the
`lhs`/`rhs` fields of `Disjunction` nodes with Python booleans, and `rewrite`
overwrites the child fields of `Implication` and `Negation` nodes.  The
embedding threads the mutated tree and the mapping explicitly.
-/

/-- The `mapping` dict of `simplify`: variable identifier to forced value,
in insertion order (Python dicts preserve it). -/
abbrev Mapping := List (String × Bool)

/-- `mapping.get(expr, default)` without the default. -/
def mget (m : Mapping) (k : String) : Option Bool :=
  (m.find? (fun kv => kv.1 == k)).map (fun kv => kv.2)

/-- `mapping[expr] = v`: update in place when the key exists (keeping its
position), append otherwise. -/
def mset (m : Mapping) (k : String) (v : Bool) : Mapping :=
  if (m.find? (fun kv => kv.1 == k)).isSome then
    m.map (fun kv => if kv.1 == k then (kv.1, v) else kv)
  else m ++ [(k, v)]

/-- Python truthiness of an expression value: the boolean `False` is falsy,
every dataclass instance (and `True`) is truthy. -/
def truthy : Expr → Bool
  | .Const b => b
  | _ => true

/-- The result of one `reduce_constexprs` call: the returned boolean, the
tree object after its in-place field writes, and the updated `mapping`. -/
structure Reduced where
  res : Bool
  tree : Expr
  map : Mapping
  deriving DecidableEq, Repr

/--
`reduce_constexprs(expr, constraint)`.  Branch by branch:

* `Variable`: `mapping.get` with the constraint as default; a recorded
  conflicting value returns `False` (before any write), otherwise the value is
  recorded and the fall-through returns `True`.
* `Negation`: recurse on the operand with the constraint flipped.
* `Implication`: `reduce(premise, c) and reduce(conclusion, c)` — the `and`
  short-circuits, so the conclusion is not visited when the premise fails.
* `Conjunction`: both children are visited with constraint `True` (the
  incoming constraint is ignored), also short-circuiting.
* `Disjunction`: both children are visited with the *default* constraint
  `True`; the `lhs` field is overwritten with the boolean `False` when the
  left reduction fails, and the `rhs` field is overwritten with the *left*
  boolean result (`else lhs` in the source) when the right reduction fails.
  `False` is returned only when both reductions failed.
* anything else (a boolean constant): no branch matches, fall through to
  `return True`.
-/
def reduceC : Expr → Mapping → Bool → Reduced
  | .Variable s, m, c =>
    let val := (mget m s).getD c
    if val != c then ⟨false, .Variable s, m⟩
    else ⟨true, .Variable s, mset m s c⟩
  | .Negation e, m, c =>
    let r := reduceC e m (!c)
    ⟨r.res, .Negation r.tree, r.map⟩
  | .Implication concl prem, m, c =>
    let r1 := reduceC prem m c
    if r1.res then
      let r2 := reduceC concl r1.map c
      ⟨r2.res, .Implication r2.tree r1.tree, r2.map⟩
    else ⟨false, .Implication concl r1.tree, r1.map⟩
  | .Conjunction l r, m, _ =>
    let r1 := reduceC l m true
    if r1.res then
      let r2 := reduceC r r1.map true
      ⟨r2.res, .Conjunction r1.tree r2.tree, r2.map⟩
    else ⟨false, .Conjunction r1.tree r, r1.map⟩
  | .Disjunction l r, m, _ =>
    let r1 := reduceC l m true
    let lhsField := if r1.res then r1.tree else .Const false
    let r2 := reduceC r r1.map true
    let rhsField := if r2.res then r2.tree else .Const r1.res
    ⟨r1.res || r2.res, .Disjunction lhsField rhsField, r2.map⟩
  | .Const b, m, _ => ⟨true, .Const b, m⟩

/--
`rewrite(expr)`, returning `(result, tree object after the call)` — the two
differ for `Disjunction` (which returns a rewritten *child*) and for
`Conjunction` (which returns the boolean `False`, leaving the node alone).
`none` models the `RecursionError` from `return rewrite(expr)` on an
unchanged `Conjunction` whose fields are both the boolean `True` (the chained
comparison `expr.lhs == expr.rhs == True` only ever holds for two boolean
`True` fields, since a dataclass never equals `True`).

* `Disjunction`: when both fields are `True`, return the node; otherwise
  recurse into `lhs` if it is truthy, else into `rhs` (no field write, but the
  chosen child is mutated in place by the recursion).
* `Conjunction`: `rewrite(expr)` diverges when both fields are `True`;
  otherwise return `False` without touching the node.
* `Implication` and `Negation`: overwrite each child field with the rewrite
  of its old value (premise before conclusion), then return the node.
* `Variable` and booleans: returned unchanged.
-/
def rewriteSM : Expr → Option (Expr × Expr)
  | .Disjunction l r =>
    if l == r && r == Expr.Const true then some (.Disjunction l r, .Disjunction l r)
    else
      match truthy l with
      | true =>
        match rewriteSM l with
        | none => none
        | some (res, l2) => some (res, .Disjunction l2 r)
      | false =>
        match rewriteSM r with
        | none => none
        | some (res, r2) => some (res, .Disjunction l r2)
  | .Conjunction l r =>
    if l == r && r == Expr.Const true then none
    else some (.Const false, .Conjunction l r)
  | .Implication concl prem =>
    match rewriteSM prem with
    | none => none
    | some (rp, _) =>
      match rewriteSM concl with
      | none => none
      | some (rc, _) => some (.Implication rc rp, .Implication rc rp)
  | .Negation e =>
    match rewriteSM e with
    | none => none
    | some (re, _) => some (.Negation re, .Negation re)
  | e => some (e, e)

/-- Both phases of `simplify(expr)` on a fresh empty mapping, giving the
returned value and the final state of the argument object. -/
def simplifyRun (e : Expr) : Option (Expr × Expr) :=
  rewriteSM (reduceC e [] true).tree

/-- The value `simplify(expr)` returns (`none` is a `RecursionError`). -/
def simplify (e : Expr) : Option Expr :=
  (simplifyRun e).map (fun pr => pr.1)

/-- The state of the argument object after `simplify(expr)` returns. -/
def simplifyArg (e : Expr) : Option Expr :=
  (simplifyRun e).map (fun pr => pr.2)

/-! ## The solver

`_solve_expr(expr, mappings, constraint)` loops over the incoming mappings,
dispatches on the node kind, and extends `new_mappings` with each item's
results in order.  When `expr` matches no node kind (a boolean constant),
`new_mappings.extend(mapping)` iterates over the *dict*, appending its
`Variable` keys — not mappings — to the result list; the element type is
therefore a sum.  Passing such a stray key back in as a "mapping" makes
Python raise (`AttributeError` on `mapping.get`, `TypeError` on `extend`);
both are modelled as `.error ()`.
-/

/-- An element of the solver's `mappings` list: a genuine variable mapping,
or a stray `Variable` key leaked by the boolean-constant branch. -/
abbrev Item := Mapping ⊕ String

/-- The body of the `for mapping in mappings` loop of `_solve_expr` for a
single element, returning the list of results this element contributes. -/
def solveOne : Expr → Item → Bool → Except Unit (List Item)
  | .Variable s, it, c =>
    match it with
    | .inr _ => .error ()
    | .inl m =>
      if ((mget m s).getD c) != c then .ok []
      else .ok [.inl (mset m s c)]
  | .Disjunction l r, it, c => do
    let a ← solveOne l it c
    let b ← solveOne r it c
    .ok (a ++ b)
  | .Conjunction l r, it, c => do
    let m ← solveOne l it c
    m.foldlM (fun acc it2 => do .ok (acc ++ (← solveOne r it2 c))) []
  | .Negation e, it, c => solveOne e it (!c)
  | .Implication concl prem, it, c =>
    match c with
    | false => do
      let m ← solveOne prem it true
      m.foldlM (fun acc it2 => do .ok (acc ++ (← solveOne concl it2 false))) []
    | true => .ok [it]
  | .Const _, it, _ =>
    match it with
    | .inl m => .ok (m.map (fun kv => .inr kv.1))
    | .inr _ => .error ()

/-- `_solve_expr(expr, mappings, constraint)`: the loop itself. -/
def solveE (e : Expr) : List Item → Bool → Except Unit (List Item)
  | [], _ => .ok []
  | it :: rest, c => do
    let r ← solveOne e it c
    let rs ← solveE e rest c
    .ok (r ++ rs)

/-- `solve_expr(expr)`: solve from the single empty mapping for `True`. -/
def solve_expr (e : Expr) : Except Unit (List Item) :=
  solveE e [.inl []] true

/-- Everything `solve(proposition)` can raise. -/
inductive RunErr where
  | parseErr (e : PErr)
  | recursionErr
  | solveErr
  deriving DecidableEq, Repr

/-- `solve(proposition)`: parse, return `None` for an empty parse, run
`simplify` (whose only surviving effect is its in-place mutation of the
tree `expr` still names — the returned `simplified` value is unused), and
solve the possibly-mutated tree from the single empty mapping. -/
def solve (s : String) : Except RunErr (Option (List Item)) :=
  match parseStr s with
  | .error e => .error (.parseErr e)
  | .ok none => .ok none
  | .ok (some expr) =>
    match simplifyRun expr with
    | none => .error .recursionErr
    | some (_, expr2) =>
      match solveE expr2 [.inl []] true with
      | .error _ => .error .solveErr
      | .ok l => .ok (some l)

/-! ## `stringify` and supporting notions for the claims -/

/-- How an f-string renders a recursive `stringify` result: the `None` that
`stringify` returns for a boolean constant (no `isinstance` branch matches,
so the function falls off its end) is formatted as the text `None`. -/
def pyStr : Option String → String
  | some s => s
  | none => "None"

/-- `stringify(expr)`: fully parenthesised text, printing `lhs` before `rhs`
and `premise` before `conclusion`.  A boolean constant returns Python `None`
(modelled `none`); nested constants are rendered `None` by the f-string. -/
def stringifyM : Expr → Option String
  | .Variable s => some s
  | .Negation e => some ("(¬" ++ pyStr (stringifyM e) ++ ")")
  | .Conjunction l r =>
    some ("(" ++ pyStr (stringifyM l) ++ " ∧ " ++ pyStr (stringifyM r) ++ ")")
  | .Disjunction l r =>
    some ("(" ++ pyStr (stringifyM l) ++ " ∨ " ++ pyStr (stringifyM r) ++ ")")
  | .Implication concl prem =>
    some ("(" ++ pyStr (stringifyM prem) ++ " → " ++ pyStr (stringifyM concl) ++ ")")
  | .Const _ => none

/-- Swap the operand fields of every `Conjunction` and `Disjunction`.  This is
the involution by which re-parsing `stringify(t)` differs from `t`: `stringify`
prints `lhs` first, while the parser pops the most recently pushed operand
into `lhs`. -/
def mirror : Expr → Expr
  | .Variable s => .Variable s
  | .Conjunction l r => .Conjunction (mirror r) (mirror l)
  | .Disjunction l r => .Disjunction (mirror r) (mirror l)
  | .Implication concl prem => .Implication (mirror concl) (mirror prem)
  | .Negation e => .Negation (mirror e)
  | .Const b => .Const b

/-- Truth-table evaluation of a formula under a total assignment — the
standard semantics the specification's "truth assignment makes e evaluate to
true" refers to.  Boolean constants denote themselves. -/
def evalE (σ : String → Bool) : Expr → Bool
  | .Variable s => σ s
  | .Conjunction l r => evalE σ l && evalE σ r
  | .Disjunction l r => evalE σ l || evalE σ r
  | .Implication concl prem => !evalE σ prem || evalE σ concl
  | .Negation e => !evalE σ e
  | .Const b => b

/-- A character the tokeniser turns into a variable. -/
def goodChar (c : Char) : Bool := c.isAlpha

/-- Trees the parser can produce: no boolean constants, and every variable
identifier is a single alphabetic character. -/
def goodExpr : Expr → Bool
  | .Variable s =>
    match s.toList with
    | [c] => goodChar c
    | _ => false
  | .Conjunction l r => goodExpr l && goodExpr r
  | .Disjunction l r => goodExpr l && goodExpr r
  | .Implication concl prem => goodExpr concl && goodExpr prem
  | .Negation e => goodExpr e
  | .Const _ => false

/-- The shape of every value `simplify` can return: built from variables,
constants, negations and implications, with every surviving `Disjunction`
carrying two literal `True` fields — and never a `Conjunction`. -/
def stable : Expr → Bool
  | .Variable _ => true
  | .Const _ => true
  | .Negation e => stable e
  | .Implication concl prem => stable concl && stable prem
  | .Disjunction l r => l == Expr.Const true && r == Expr.Const true
  | .Conjunction _ _ => false

/-- Trees made only of variables, boolean constants and conjunctions: the
node kinds on which neither simplifier phase writes any field. -/
def varConjOnly : Expr → Bool
  | .Variable _ => true
  | .Const _ => true
  | .Conjunction l r => varConjOnly l && varConjOnly r
  | _ => false

/-! ## The grammar of well-formed token sequences

`Gram p ts t` says the token sequence `ts` derives, at precedence level `p`,
a formula whose parse tree (in the field orientation the code produces:
binary reductions pop the most recent operand into the first field) is `t`.
The levels mirror `Parser.precedence` — negation 40, conjunction 30,
disjunction 20, implication 10 — and in each binary rule the *right* operand
recurses at the same level, so sequences of equal-precedence operators group
to the right, exactly as the strict `>` comparison of the shunting-yard loop
leaves ties unreduced.
-/
inductive Gram : Nat → List Tok → Expr → Prop
  | var (s : String) : Gram 40 [.varT s] (.Variable s)
  | neg {ts t} : Gram 40 ts t → Gram 40 (.opT .notT :: ts) (.Negation t)
  | paren {ts t} : Gram 10 ts t → Gram 40 (.opT .lparT :: ts ++ [.rparT]) t
  | weaken30 {ts t} : Gram 40 ts t → Gram 30 ts t
  | andG {ts1 t1 ts2 t2} : Gram 40 ts1 t1 → Gram 30 ts2 t2 →
      Gram 30 (ts1 ++ .opT .andT :: ts2) (.Conjunction t2 t1)
  | weaken20 {ts t} : Gram 30 ts t → Gram 20 ts t
  | orG {ts1 t1 ts2 t2} : Gram 30 ts1 t1 → Gram 20 ts2 t2 →
      Gram 20 (ts1 ++ .opT .orT :: ts2) (.Disjunction t2 t1)
  | weaken10 {ts t} : Gram 20 ts t → Gram 10 ts t
  | impG {ts1 t1 ts2 t2} : Gram 20 ts1 t1 → Gram 10 ts2 t2 →
      Gram 10 (ts1 ++ .opT .impT :: ts2) (.Implication t2 t1)

/-- The incoming operator stack a level-`p` derivation may be processed on:
empty, a left parenthesis on top, or a top operator that will not be popped
by any operator of precedence at least `p`. -/
def okTop (p : Nat) : OStack → Prop
  | [] => True
  | o :: _ => o = .lparT ∨ prec o ≤ p

/-- Apply a list of pending operators, bottom of the list last, the way each
reduction loop of the parser does. -/
def flushSeq : List OpT → VStack → Option VStack
  | [], vs => some vs
  | o :: rest, vs => (applyOp o vs).bind (flushSeq rest)

/-! ## Concrete behaviour of the pipeline -/

/--
C7: `simplify(parse("P∧¬P"))` is the boolean constant `false`, and
`simplify(parse("(P∧¬P)∨Q"))` is `Variable("Q")`.  (`parse` pops the most
recent operand into `lhs`, so `P∧¬P` parses to
`Conjunction(lhs=¬P, rhs=P)`.)
-/
theorem c7_contradiction_and_absorption :
    parseStr "P∧¬P" =
      .ok (some (.Conjunction (.Negation (.Variable "P")) (.Variable "P"))) ∧
    simplify (.Conjunction (.Negation (.Variable "P")) (.Variable "P")) =
      some (.Const false) ∧
    parseStr "(P∧¬P)∨Q" =
      .ok (some (.Disjunction (.Variable "Q")
        (.Conjunction (.Negation (.Variable "P")) (.Variable "P")))) ∧
    simplify (.Disjunction (.Variable "Q")
        (.Conjunction (.Negation (.Variable "P")) (.Variable "P"))) =
      some (.Variable "Q") := by
  decide

/--
C5: `solve("P∨Q")` returns exactly the two mappings `{Q: true}` and
`{P: true}`, in that order — the parser puts `Q` into the `lhs` field of the
disjunction, and the solver explores the `lhs` branch (on the deep copy)
before the `rhs` branch.  The model is a function of the input string, so
the order is the same on every run.
-/
theorem c5_solve_disjunction_pair :
    solve "P∨Q" = .ok (some [.inl [("Q", true)], .inl [("P", true)]]) := by
  decide

/--
C10: an expression that is none of the five node kinds — a bare boolean
constant, alone or as a conjunction operand — makes `_solve_expr` fall
through every `isinstance` branch and `extend` the result with the keys of
the (empty) incoming dict, so every in-progress mapping is discarded:
`solve_expr(True)`, `solve_expr(False)` and
`solve_expr(Conjunction(lhs=True, rhs=Variable("P")))` all return `[]`.
-/
theorem c10_constant_discards_mappings :
    solve_expr (.Const true) = .ok [] ∧
    solve_expr (.Const false) = .ok [] ∧
    solve_expr (.Conjunction (.Const true) (.Variable "P")) = .ok [] :=
  ⟨by decide, by decide, by decide⟩

/--
C1 (code bug): `P∧Q` is satisfiable — it evaluates to `true` under the
all-true assignment — yet `simplify(parse("P∧Q"))` returns the boolean
constant `false`.  `rewrite` maps every `Conjunction` whose fields are not
both the literal `True` to `False`, regardless of what `reduce_constexprs`
established, so the claimed "false exactly for unsatisfiable formulas"
fails on the code.
-/
theorem c1_satisfiable_conjunction_simplifies_to_false :
    parseStr "P∧Q" = .ok (some (.Conjunction (.Variable "Q") (.Variable "P"))) ∧
    simplify (.Conjunction (.Variable "Q") (.Variable "P")) = some (.Const false) ∧
    evalE (fun _ => true) (.Conjunction (.Variable "Q") (.Variable "P")) = true := by
  decide

/--
C2 (counterexample): `parse` is not exception-free.  `")"` pops the empty
operator stack (`IndexError`), `"∧"` pops the empty operand stack inside a
handler (`IndexError`), and `"("` leaves a `LEFT_PAREN` for the final
reduction loop to look up in the handler table (`KeyError`).
-/
theorem c2_parse_raises_counterexample :
    parseStr ")" = .error .indexError ∧
    parseStr "∧" = .error .indexError ∧
    parseStr "(" = .error .keyError := by
  decide

/--
C3 (counterexample): `simplify` mutates its argument.  On the parse tree of
`"(P∧¬P)∨Q"`, `reduce_constexprs` overwrites the `rhs` field of the
disjunction with the boolean `True`, so after the call the argument is
`Disjunction(Variable("Q"), True)` — not the original tree.
-/
theorem c3_simplify_mutates_counterexample :
    parseStr "(P∧¬P)∨Q" =
      .ok (some (.Disjunction (.Variable "Q")
        (.Conjunction (.Negation (.Variable "P")) (.Variable "P")))) ∧
    simplifyArg (.Disjunction (.Variable "Q")
        (.Conjunction (.Negation (.Variable "P")) (.Variable "P"))) ≠
      some (.Disjunction (.Variable "Q")
        (.Conjunction (.Negation (.Variable "P")) (.Variable "P"))) := by
  decide

/--
C6 (counterexample): equal-precedence ties do not associate left.  The
strict `>` comparison never reduces a tie, so `"P∧Q∧R"` parses with the
second `∧` binding deeper — textually `P∧(Q∧R)`, i.e.
`Conjunction(Conjunction(R, Q), P)` in the code's operand orientation — and
not as the left grouping `(P∧Q)∧R`, which would be
`Conjunction(R, Conjunction(Q, P))`.
-/
theorem c6_ties_not_left_associative :
    parseStr "P∧Q∧R" =
      .ok (some (.Conjunction (.Conjunction (.Variable "R") (.Variable "Q"))
        (.Variable "P"))) ∧
    (Expr.Conjunction (.Conjunction (.Variable "R") (.Variable "Q")) (.Variable "P")) ≠
      (Expr.Conjunction (.Variable "R") (.Conjunction (.Variable "Q") (.Variable "P"))) := by
  decide

/--
C9 (counterexample): the stringify/parse round trip is not the identity.
`parse("P∧Q")` is `Conjunction(lhs=Q, rhs=P)`; `stringify` prints `lhs`
first, giving `"(Q ∧ P)"`; re-parsing that yields `Conjunction(lhs=P, rhs=Q)`
— the mirrored tree, not the original.
-/
theorem c9_round_trip_counterexample :
    parseStr "P∧Q" = .ok (some (.Conjunction (.Variable "Q") (.Variable "P"))) ∧
    stringifyM (.Conjunction (.Variable "Q") (.Variable "P")) = some "(Q ∧ P)" ∧
    parseStr "(Q ∧ P)" = .ok (some (.Conjunction (.Variable "P") (.Variable "Q"))) ∧
    (Expr.Conjunction (.Variable "P") (.Variable "Q")) ≠
      (Expr.Conjunction (.Variable "Q") (.Variable "P")) := by
  decide

/-! ## The solver's treatment of implication (C4) -/

theorem eb_ok {ε α β : Type} (a : α) (f : α → Except ε β) :
    (Except.ok a : Except ε α) >>= f = f a := rfl

theorem eb_err {ε α β : Type} (e : ε) (f : α → Except ε β) :
    (Except.error e : Except ε α) >>= f = .error e := rfl

theorem eb_eq {ε α β : Type} (x : Except ε α) (f : α → Except ε β) :
    x.bind f = x >>= f := rfl

theorem ep_ok {ε α : Type} (a : α) : (Except.pure a : Except ε α) = .ok a := rfl

/-- `_solve_expr` processes its mapping list pointwise, in order. -/
theorem solveE_append (e : Expr) (l1 l2 : List Item) (c : Bool) :
    solveE e (l1 ++ l2) c =
      (solveE e l1 c).bind (fun a =>
        (solveE e l2 c).bind (fun b => .ok (a ++ b))) := by
  induction l1 with
  | nil =>
    simp only [List.nil_append, solveE, eb_eq, eb_ok]
    cases h : solveE e l2 c <;> simp [eb_ok, eb_err]
  | cons it rest ih =>
    simp only [List.cons_append, solveE, List.append_eq, ih, eb_eq]
    cases h1 : solveOne e it c with
    | error e1 => simp [eb_err]
    | ok r =>
      simp only [eb_ok]
      cases h2 : solveE e rest c with
      | error e2 => simp [eb_err, eb_ok]
      | ok rs =>
        simp only [eb_ok]
        cases h3 : solveE e l2 c <;> simp [eb_ok, eb_err, List.append_assoc]

/-- The `new_mappings` accumulation loop that the `Conjunction` and
`Implication` branches run over an intermediate mapping list is exactly
`_solve_expr` of the second child. -/
theorem foldl_as_solveE (e : Expr) (c : Bool) (l : List Item) (acc : List Item) :
    (l.foldlM (fun acc2 it2 => do Except.ok (acc2 ++ (← solveOne e it2 c))) acc) =
      (solveE e l c).bind (fun out => .ok (acc ++ out)) := by
  induction l generalizing acc with
  | nil => simp [solveE, eb_eq, eb_ok, ep_ok, pure]
  | cons it rest ih =>
    simp only [List.foldlM_cons, solveE, eb_eq]
    cases h1 : solveOne e it c with
    | error e1 => simp [eb_err]
    | ok v =>
      simp only [eb_ok]
      rw [ih]
      simp only [eb_eq]
      cases h2 : solveE e rest c <;> simp [eb_ok, eb_err, List.append_assoc]

/--
C4: for every `Implication` node and every incoming mapping list, solving
under constraint `false` is exactly: require the premise to satisfy `true`,
then require the conclusion to satisfy `false` on the survivors; solving
under constraint `true` returns the incoming mappings unchanged, without
inspecting premise or conclusion.
-/
theorem c4_implication_branches (concl prem : Expr) (ms : List Item) :
    solveE (.Implication concl prem) ms false =
      (solveE prem ms true).bind (fun l => solveE concl l false) ∧
    solveE (.Implication concl prem) ms true = .ok ms := by
  constructor
  · induction ms with
    | nil => simp [solveE, eb_eq, eb_ok]
    | cons it rest ih =>
      simp only [solveE, ih, solveOne, foldl_as_solveE, eb_eq]
      cases h1 : solveOne prem it true with
      | error e1 => simp [eb_err]
      | ok m1 =>
        simp only [eb_ok]
        cases h2 : solveE prem rest true with
        | error e2 =>
          simp only [eb_err, eb_ok]
          cases h3 : solveE concl m1 false <;> simp [eb_ok, eb_err, eb_eq]
        | ok mr =>
          simp only [eb_ok, eb_err]
          rw [solveE_append]
          simp only [eb_eq]
          cases h3 : solveE concl m1 false <;>
            cases h4 : solveE concl mr false <;>
            simp [eb_ok, eb_err, eb_eq]
  · induction ms with
    | nil => rfl
    | cons it rest ih =>
      simp [solveE, solveOne, ih, eb_eq, eb_ok]

/-- Witness for C4 at a concrete implication and the single empty mapping. -/
theorem c4_implication_branches_witness :
    solveE (.Implication (.Variable "Q") (.Variable "P")) [.inl []] false =
      (solveE (.Variable "P") [.inl []] true).bind
        (fun l => solveE (.Variable "Q") l false) ∧
    solveE (.Implication (.Variable "Q") (.Variable "P")) [.inl []] true =
      .ok [.inl []] :=
  c4_implication_branches (.Variable "Q") (.Variable "P") [.inl []]

/-! ## Idempotence of the simplifier (C8) -/

/-- Whatever `rewrite` returns is a `stable` tree: no `Conjunction` survives,
and every surviving `Disjunction` carries two literal `True` fields. -/
theorem rewrite_stable : ∀ (e r s : Expr), rewriteSM e = some (r, s) → stable r = true := by
  intro e
  induction e with
  | Variable v =>
    intro r s h
    simp only [rewriteSM, Option.some.injEq, Prod.mk.injEq] at h
    rw [← h.1]; rfl
  | Const b =>
    intro r s h
    simp only [rewriteSM, Option.some.injEq, Prod.mk.injEq] at h
    rw [← h.1]; rfl
  | Negation e1 ih =>
    intro r s h
    simp only [rewriteSM] at h
    cases h1 : rewriteSM e1 with
    | none => rw [h1] at h; exact absurd h (by simp)
    | some pr =>
      rw [h1] at h
      simp only [Option.some.injEq, Prod.mk.injEq] at h
      rw [← h.1]
      exact ih pr.1 pr.2 h1
  | Implication concl prem ihc ihp =>
    intro r s h
    simp only [rewriteSM] at h
    cases h1 : rewriteSM prem with
    | none => rw [h1] at h; exact absurd h (by simp)
    | some pr =>
      rw [h1] at h
      cases h2 : rewriteSM concl with
      | none => rw [h2] at h; exact absurd h (by simp)
      | some pc =>
        rw [h2] at h
        simp only [Option.some.injEq, Prod.mk.injEq] at h
        rw [← h.1]
        simp only [stable, Bool.and_eq_true]
        exact ⟨ihc pc.1 pc.2 h2, ihp pr.1 pr.2 h1⟩
  | Conjunction l r0 ihl ihr =>
    intro r s h
    simp only [rewriteSM] at h
    by_cases hc : (l == r0 && r0 == Expr.Const true) = true
    · rw [if_pos hc] at h; exact absurd h (by simp)
    · rw [if_neg hc] at h
      simp only [Option.some.injEq, Prod.mk.injEq] at h
      rw [← h.1]; rfl
  | Disjunction l r0 ihl ihr =>
    intro r s h
    simp only [rewriteSM] at h
    by_cases hc : (l == r0 && r0 == Expr.Const true) = true
    · rw [if_pos hc] at h
      simp only [Option.some.injEq, Prod.mk.injEq] at h
      rw [← h.1]
      simp only [Bool.and_eq_true, beq_iff_eq] at hc
      simp [stable, hc.1, hc.2]
    · rw [if_neg hc] at h
      cases ht : truthy l with
      | true =>
        rw [ht] at h
        cases h1 : rewriteSM l with
        | none => rw [h1] at h; exact absurd h (by simp)
        | some pr =>
          rw [h1] at h
          simp only [Option.some.injEq, Prod.mk.injEq] at h
          rw [← h.1]
          exact ihl pr.1 pr.2 h1
      | false =>
        rw [ht] at h
        cases h1 : rewriteSM r0 with
        | none => rw [h1] at h; exact absurd h (by simp)
        | some pr =>
          rw [h1] at h
          simp only [Option.some.injEq, Prod.mk.injEq] at h
          rw [← h.1]
          exact ihr pr.1 pr.2 h1

/-- `reduce_constexprs` never changes a stable tree: its only writes happen
on a `Disjunction` with a failing side, and a stable disjunction's sides are
the constant `True`, which always succeeds. -/
theorem stable_reduce : ∀ (t : Expr), stable t = true →
    ∀ (m : Mapping) (c : Bool), (reduceC t m c).tree = t := by
  intro t
  induction t with
  | Variable v =>
    intro _ m c
    simp only [reduceC]
    split <;> rfl
  | Const b => intro _ m c; rfl
  | Negation e1 ih =>
    intro hs m c
    simp only [stable] at hs
    simp only [reduceC]
    rw [ih hs]
  | Implication concl prem ihc ihp =>
    intro hs m c
    simp only [stable, Bool.and_eq_true] at hs
    simp only [reduceC]
    cases hr : (reduceC prem m c).res <;>
      simp [hr, ihp hs.2, ihc hs.1]
  | Conjunction l r ihl ihr =>
    intro hs _ _
    exact absurd hs (by simp [stable])
  | Disjunction l r ihl ihr =>
    intro hs m c
    simp only [stable, Bool.and_eq_true, beq_iff_eq] at hs
    rw [hs.1, hs.2]
    rfl

/-- `rewrite` reproduces a stable tree (and performs no writes on it). -/
theorem stable_rewrite : ∀ (t : Expr), stable t = true → rewriteSM t = some (t, t) := by
  intro t
  induction t with
  | Variable v => intro _; rfl
  | Const b => intro _; rfl
  | Negation e1 ih =>
    intro hs
    simp only [stable] at hs
    simp only [rewriteSM, ih hs]
  | Implication concl prem ihc ihp =>
    intro hs
    simp only [stable, Bool.and_eq_true] at hs
    simp only [rewriteSM, ihp hs.2, ihc hs.1]
  | Conjunction l r ihl ihr =>
    intro hs
    exact absurd hs (by simp [stable])
  | Disjunction l r ihl ihr =>
    intro hs
    simp only [stable, Bool.and_eq_true, beq_iff_eq] at hs
    rw [hs.1, hs.2]
    rfl

/--
C8: `simplify` is idempotent on every run that returns (the only runs that
do not are the `RecursionError` of `rewrite` on a `Conjunction` with two
literal `True` fields, where Python raises and no value exists to compare):
whenever `simplify e` returns a value `t`, `simplify t` returns `t` itself.
-/
theorem c8_simplify_idempotent (e t : Expr) (h : simplify e = some t) :
    simplify t = some t := by
  have hst : stable t = true := by
    unfold simplify simplifyRun at h
    cases hr : rewriteSM (reduceC e [] true).tree with
    | none => rw [hr] at h; exact absurd h (by simp)
    | some pr =>
      rw [hr] at h
      have h2 : pr.1 = t := by simpa using h
      rw [← h2]
      exact rewrite_stable _ pr.1 pr.2 hr
  unfold simplify simplifyRun
  rw [stable_reduce t hst [] true, stable_rewrite t hst]
  rfl

/-- Witness for C8: `simplify` of the parse tree of `"P∨Q"` returns
`Variable("Q")`, and `simplify` of that result returns it unchanged. -/
theorem c8_simplify_idempotent_witness :
    simplify (.Disjunction (.Variable "Q") (.Variable "P")) = some (.Variable "Q") ∧
    simplify (.Variable "Q") = some (.Variable "Q") :=
  ⟨by decide,
   c8_simplify_idempotent (.Disjunction (.Variable "Q") (.Variable "P"))
     (.Variable "Q") (by decide)⟩

/-! ## Where the simplifier can and cannot write (C3) -/

/-- `reduce_constexprs` writes no field of a tree built only from variables,
boolean constants and conjunctions: its only writes target `Disjunction`
nodes. -/
theorem reduce_vco : ∀ (e : Expr), varConjOnly e = true →
    ∀ (m : Mapping) (c : Bool), (reduceC e m c).tree = e := by
  intro e
  induction e with
  | Variable v =>
    intro _ m c
    simp only [reduceC]
    split <;> rfl
  | Const b => intro _ m c; rfl
  | Conjunction l r ihl ihr =>
    intro hv m c
    simp only [varConjOnly, Bool.and_eq_true] at hv
    simp only [reduceC]
    cases hr : (reduceC l m true).res <;>
      simp [hr, ihl hv.1, ihr hv.2]
  | Disjunction l r ihl ihr => intro hv; exact absurd hv (by simp [varConjOnly])
  | Implication concl prem ihc ihp => intro hv; exact absurd hv (by simp [varConjOnly])
  | Negation e1 ih => intro hv; exact absurd hv (by simp [varConjOnly])

/--
C3 (amended): `simplify` is not free of effects on its argument — it may
overwrite `Disjunction` operand fields (during forced-value detection) and
`Implication`/`Negation` child fields (during rewriting).  The argument is
guaranteed unchanged when it contains none of those node kinds: any tree
built only from `Variable`, boolean-constant and `Conjunction` nodes is left
intact — except the lone tree `Conjunction(True, True)`, on which `rewrite`
recurses forever and no call returns at all.
-/
theorem c3_no_write_on_var_conj (e : Expr) (h1 : varConjOnly e = true)
    (h2 : e ≠ .Conjunction (.Const true) (.Const true)) :
    simplifyArg e = some e := by
  unfold simplifyArg simplifyRun
  rw [reduce_vco e h1 [] true]
  cases e with
  | Variable v => rfl
  | Const b => rfl
  | Conjunction l r =>
    have hc : (l == r && r == Expr.Const true) ≠ true := by
      intro hcc
      simp only [Bool.and_eq_true, beq_iff_eq] at hcc
      exact h2 (by rw [hcc.1, hcc.2])
    simp only [rewriteSM, if_neg hc]
    rfl
  | Disjunction l r => exact absurd h1 (by simp [varConjOnly])
  | Implication concl prem => exact absurd h1 (by simp [varConjOnly])
  | Negation e1 => exact absurd h1 (by simp [varConjOnly])

/-- Witness for C3 (amended) on `Conjunction(Variable("P"), Variable("Q"))`. -/
theorem c3_no_write_on_var_conj_witness :
    varConjOnly (.Conjunction (.Variable "P") (.Variable "Q")) = true ∧
    (Expr.Conjunction (.Variable "P") (.Variable "Q")) ≠
      (Expr.Conjunction (.Const true) (.Const true)) ∧
    simplifyArg (.Conjunction (.Variable "P") (.Variable "Q")) =
      some (.Conjunction (.Variable "P") (.Variable "Q")) :=
  ⟨by decide, by decide,
   c3_no_write_on_var_conj (.Conjunction (.Variable "P") (.Variable "Q"))
     (by decide) (by decide)⟩

/-! ## The parser on well-formed input (C2, C6)

The master lemma `gram_process` tracks the shunting-yard state across a
grammar derivation: processing a level-`p` well-formed token sequence leaves
a pending block of operators (all of precedence at least `p`, no parenthesis)
on top of the untouched incoming stacks, and flushing that block yields
exactly the derived tree.
-/

theorem applyOp_frame (o : OpT) (vs vs2 ext : VStack)
    (h : applyOp o vs = some vs2) : applyOp o (vs ++ ext) = some (vs2 ++ ext) := by
  cases o
  case lparT => simp [applyOp] at h
  case notT =>
    rcases vs with _ | ⟨a, tl⟩
    · simp [applyOp] at h
    · simp only [applyOp, Option.some.injEq] at h
      rw [← h]; rfl
  case andT =>
    rcases vs with _ | ⟨a, _ | ⟨b, tl⟩⟩
    · simp [applyOp] at h
    · simp [applyOp] at h
    · simp only [applyOp, Option.some.injEq] at h
      rw [← h]; rfl
  case orT =>
    rcases vs with _ | ⟨a, _ | ⟨b, tl⟩⟩
    · simp [applyOp] at h
    · simp [applyOp] at h
    · simp only [applyOp, Option.some.injEq] at h
      rw [← h]; rfl
  case impT =>
    rcases vs with _ | ⟨a, _ | ⟨b, tl⟩⟩
    · simp [applyOp] at h
    · simp [applyOp] at h
    · simp only [applyOp, Option.some.injEq] at h
      rw [← h]; rfl

theorem flushSeq_frame : ∀ (pend : List OpT) (pvs out ext : VStack),
    flushSeq pend pvs = some out → flushSeq pend (pvs ++ ext) = some (out ++ ext) := by
  intro pend
  induction pend with
  | nil =>
    intro pvs out ext h
    simp only [flushSeq, Option.some.injEq] at h
    rw [← h]; rfl
  | cons o rest ih =>
    intro pvs out ext h
    simp only [flushSeq] at h ⊢
    cases h1 : applyOp o pvs with
    | none => rw [h1] at h; simp at h
    | some vs1 =>
      rw [h1] at h
      rw [applyOp_frame o pvs vs1 ext h1]
      exact ih vs1 out ext h

theorem flushSeq_append : ∀ (a b : List OpT) (vs : VStack),
    flushSeq (a ++ b) vs = (flushSeq a vs).bind (flushSeq b) := by
  intro a
  induction a with
  | nil => intro b vs; rfl
  | cons o rest ih =>
    intro b vs
    simp only [List.cons_append, flushSeq]
    cases h1 : applyOp o vs with
    | none => rfl
    | some vs1 => exact ih b vs1

theorem processToks_append : ∀ (a b : List Tok) (st : OStack × VStack),
    processToks (a ++ b) st =
      (processToks a st) >>= (fun st2 => processToks b st2) := by
  intro a
  induction a with
  | nil => intro b st; rfl
  | cons tk rest ih =>
    intro b st
    simp only [List.cons_append, processToks]
    cases h1 : step st tk with
    | error e1 => simp [eb_err]
    | ok st1 => simp [eb_ok, ih]

/-- No operator outranks negation, so processing `¬` never reduces. -/
theorem rwh40 (ops : OStack) (vs : VStack) :
    reduceWhileHigher 40 ops vs = .ok (ops, vs) := by
  cases ops with
  | nil => rfl
  | cons o rest =>
    by_cases h : o = OpT.lparT
    · simp [reduceWhileHigher, h]
    · have hp : ¬ (prec o > 40) := by cases o <;> decide
      simp [reduceWhileHigher, h, hp]

theorem okTop_mono {p q : Nat} (hpq : p ≤ q) :
    ∀ (ops : OStack), okTop p ops → okTop q ops := by
  intro ops h
  cases ops with
  | nil => trivial
  | cons o rest =>
    simp only [okTop] at h ⊢
    rcases h with h | h
    · exact Or.inl h
    · exact Or.inr (le_trans h hpq)

/-- Flushing a pending block whose operators all outrank the incoming token,
on top of a stack the token cannot reduce past. -/
theorem rwh_flush (q : Nat) :
    ∀ (pend : List OpT) (pvs : VStack) (t : Expr) (ops : OStack) (vs : VStack),
    (∀ o ∈ pend, o ≠ OpT.lparT ∧ q < prec o) →
    flushSeq pend pvs = some [t] →
    okTop q ops →
    reduceWhileHigher q (pend ++ ops) (pvs ++ vs) = .ok (ops, t :: vs) := by
  intro pend
  induction pend with
  | nil =>
    intro pvs t ops vs _ hf hok
    have hpvs : pvs = [t] := by simpa [flushSeq] using hf
    subst hpvs
    cases ops with
    | nil => rfl
    | cons o rest =>
      simp only [okTop] at hok
      by_cases ho : o = OpT.lparT
      · simp [reduceWhileHigher, ho]
      · have hle : prec o ≤ q := by
          rcases hok with h | h
          · exact absurd h ho
          · exact h
        have hng : ¬ (prec o > q) := not_lt.mpr hle
        simp [reduceWhileHigher, ho, hng]
  | cons o pend2 ih =>
    intro pvs t ops vs hall hf hok
    have ho := hall o (List.mem_cons_self o pend2)
    simp only [flushSeq] at hf
    cases h1 : applyOp o pvs with
    | none => rw [h1] at hf; simp at hf
    | some pvs1 =>
      rw [h1] at hf
      have h2 := applyOp_frame o pvs pvs1 vs h1
      simp only [List.cons_append, reduceWhileHigher, if_neg ho.1, if_pos ho.2, h2]
      exact ih pvs1 t ops vs (fun o2 ho2 => hall o2 (List.mem_cons_of_mem o ho2)) hf hok

/-- The `RIGHT_PAREN` loop pops a parenthesis-free pending block down to the
matching `LEFT_PAREN` and discards it. -/
theorem rul_flush :
    ∀ (pend : List OpT) (pvs : VStack) (t : Expr) (ops : OStack) (vs : VStack),
    (∀ o ∈ pend, o ≠ OpT.lparT) →
    flushSeq pend pvs = some [t] →
    reduceUntilLParen (pend ++ OpT.lparT :: ops) (pvs ++ vs) = .ok (ops, t :: vs) := by
  intro pend
  induction pend with
  | nil =>
    intro pvs t ops vs _ hf
    have hpvs : pvs = [t] := by simpa [flushSeq] using hf
    subst hpvs
    simp [reduceUntilLParen]
  | cons o pend2 ih =>
    intro pvs t ops vs hall hf
    have ho := hall o (List.mem_cons_self o pend2)
    simp only [flushSeq] at hf
    cases h1 : applyOp o pvs with
    | none => rw [h1] at hf; simp at hf
    | some pvs1 =>
      rw [h1] at hf
      have h2 := applyOp_frame o pvs pvs1 vs h1
      simp only [List.cons_append, reduceUntilLParen, if_neg ho, h2]
      exact ih pvs1 t ops vs (fun o2 ho2 => hall o2 (List.mem_cons_of_mem o ho2)) hf

/-- The final loop reduces a parenthesis-free pending block completely. -/
theorem finalReduce_flush :
    ∀ (pend : List OpT) (pvs out : VStack),
    (∀ o ∈ pend, o ≠ OpT.lparT) →
    flushSeq pend pvs = some out →
    finalReduce pend pvs = .ok out := by
  intro pend
  induction pend with
  | nil =>
    intro pvs out _ hf
    have hpvs : pvs = out := by simpa [flushSeq] using hf
    rw [hpvs]; rfl
  | cons o pend2 ih =>
    intro pvs out hall hf
    have ho := hall o (List.mem_cons_self o pend2)
    simp only [flushSeq] at hf
    cases h1 : applyOp o pvs with
    | none => rw [h1] at hf; simp at hf
    | some pvs1 =>
      rw [h1] at hf
      simp only [finalReduce, if_neg ho, h1]
      exact ih pvs1 out (fun o2 ho2 => hall o2 (List.mem_cons_of_mem o ho2)) hf

/--
Master lemma: running the token loop over a level-`p` well-formed sequence,
from any state whose operator stack the sequence's operators cannot reduce
into, succeeds, leaves a pending block on top, and flushing that block yields
exactly the derived tree.
-/
theorem gram_process {p : Nat} {ts : List Tok} {t : Expr} (h : Gram p ts t) :
    ∀ (ops : OStack) (vs : VStack), okTop p ops →
    ∃ pend pvs, processToks ts (ops, vs) = .ok (pend ++ ops, pvs ++ vs) ∧
      (∀ o ∈ pend, o ≠ OpT.lparT ∧ p ≤ prec o) ∧
      flushSeq pend pvs = some [t] := by
  induction h with
  | var s =>
    intro ops vs _
    exact ⟨[], [.Variable s], rfl, by simp, rfl⟩
  | neg h1 ih =>
    rename_i ts1 t1
    intro ops vs hok
    obtain ⟨pend1, pvs1, hp1, ha1, hf1⟩ := ih (.notT :: ops) vs (by simp [okTop, prec])
    refine ⟨pend1 ++ [.notT], pvs1, ?_, ?_, ?_⟩
    · simp only [processToks, step, prec, rwh40, eb_eq, eb_ok, hp1]
      simp [List.append_assoc]
    · intro o ho
      rcases List.mem_append.mp ho with h2 | h2
      · exact ⟨(ha1 o h2).1, (ha1 o h2).2⟩
      · simp only [List.mem_singleton] at h2
        subst h2
        exact ⟨by simp, by simp [prec]⟩
    · rw [flushSeq_append, hf1]
      rfl
  | paren h1 ih =>
    rename_i ts1 t1
    intro ops vs hok
    obtain ⟨pend1, pvs1, hp1, ha1, hf1⟩ := ih (.lparT :: ops) vs (by simp [okTop])
    refine ⟨[], [t1], ?_, by simp, rfl⟩
    simp only [processToks, step, eb_eq, eb_ok, List.append_eq]
    rw [processToks_append, hp1]
    simp only [eb_ok]
    simp only [processToks, step, eb_eq, eb_ok]
    rw [rul_flush pend1 pvs1 t1 ops vs (fun o ho => (ha1 o ho).1) hf1]
    rfl
  | weaken30 h1 ih =>
    intro ops vs hok
    obtain ⟨pend, pvs, hp, ha, hf⟩ := ih ops vs (okTop_mono (by norm_num) ops hok)
    exact ⟨pend, pvs, hp,
      fun o ho => ⟨(ha o ho).1, le_trans (by norm_num) (ha o ho).2⟩, hf⟩
  | weaken20 h1 ih =>
    intro ops vs hok
    obtain ⟨pend, pvs, hp, ha, hf⟩ := ih ops vs (okTop_mono (by norm_num) ops hok)
    exact ⟨pend, pvs, hp,
      fun o ho => ⟨(ha o ho).1, le_trans (by norm_num) (ha o ho).2⟩, hf⟩
  | weaken10 h1 ih =>
    intro ops vs hok
    obtain ⟨pend, pvs, hp, ha, hf⟩ := ih ops vs (okTop_mono (by norm_num) ops hok)
    exact ⟨pend, pvs, hp,
      fun o ho => ⟨(ha o ho).1, le_trans (by norm_num) (ha o ho).2⟩, hf⟩
  | andG h1 h2 ih1 ih2 =>
    rename_i ts1 t1 ts2 t2
    intro ops vs hok
    obtain ⟨p1, v1, hp1, ha1, hf1⟩ := ih1 ops vs (okTop_mono (by norm_num) ops hok)
    obtain ⟨p2, v2, hp2, ha2, hf2⟩ := ih2 (.andT :: ops) (t1 :: vs) (by simp [okTop, prec])
    have hstep : step (p1 ++ ops, v1 ++ vs) (.opT .andT) = .ok (.andT :: ops, t1 :: vs) := by
      simp only [step]
      rw [show prec OpT.andT = 30 from rfl,
        rwh_flush 30 p1 v1 t1 ops vs
          (fun o ho => ⟨(ha1 o ho).1, lt_of_lt_of_le (by norm_num) (ha1 o ho).2⟩)
          hf1 hok]
      rfl
    refine ⟨p2 ++ [.andT], v2 ++ [t1], ?_, ?_, ?_⟩
    · simp only [List.append_eq] at *
      rw [processToks_append, hp1]
      simp only [eb_ok]
      simp only [processToks, hstep, eb_eq, eb_ok, hp2]
      simp [List.append_assoc]
    · intro o ho
      rcases List.mem_append.mp ho with h3 | h3
      · exact ⟨(ha2 o h3).1, (ha2 o h3).2⟩
      · simp only [List.mem_singleton] at h3
        subst h3
        exact ⟨by simp, by simp [prec]⟩
    · rw [flushSeq_append, flushSeq_frame p2 v2 [t2] [t1] hf2]
      rfl
  | orG h1 h2 ih1 ih2 =>
    rename_i ts1 t1 ts2 t2
    intro ops vs hok
    obtain ⟨p1, v1, hp1, ha1, hf1⟩ := ih1 ops vs (okTop_mono (by norm_num) ops hok)
    obtain ⟨p2, v2, hp2, ha2, hf2⟩ := ih2 (.orT :: ops) (t1 :: vs) (by simp [okTop, prec])
    have hstep : step (p1 ++ ops, v1 ++ vs) (.opT .orT) = .ok (.orT :: ops, t1 :: vs) := by
      simp only [step]
      rw [show prec OpT.orT = 20 from rfl,
        rwh_flush 20 p1 v1 t1 ops vs
          (fun o ho => ⟨(ha1 o ho).1, lt_of_lt_of_le (by norm_num) (ha1 o ho).2⟩)
          hf1 hok]
      rfl
    refine ⟨p2 ++ [.orT], v2 ++ [t1], ?_, ?_, ?_⟩
    · simp only [List.append_eq] at *
      rw [processToks_append, hp1]
      simp only [eb_ok]
      simp only [processToks, hstep, eb_eq, eb_ok, hp2]
      simp [List.append_assoc]
    · intro o ho
      rcases List.mem_append.mp ho with h3 | h3
      · exact ⟨(ha2 o h3).1, (ha2 o h3).2⟩
      · simp only [List.mem_singleton] at h3
        subst h3
        exact ⟨by simp, by simp [prec]⟩
    · rw [flushSeq_append, flushSeq_frame p2 v2 [t2] [t1] hf2]
      rfl
  | impG h1 h2 ih1 ih2 =>
    rename_i ts1 t1 ts2 t2
    intro ops vs hok
    obtain ⟨p1, v1, hp1, ha1, hf1⟩ := ih1 ops vs (okTop_mono (by norm_num) ops hok)
    obtain ⟨p2, v2, hp2, ha2, hf2⟩ := ih2 (.impT :: ops) (t1 :: vs) (by simp [okTop, prec])
    have hstep : step (p1 ++ ops, v1 ++ vs) (.opT .impT) = .ok (.impT :: ops, t1 :: vs) := by
      simp only [step]
      rw [show prec OpT.impT = 10 from rfl,
        rwh_flush 10 p1 v1 t1 ops vs
          (fun o ho => ⟨(ha1 o ho).1, lt_of_lt_of_le (by norm_num) (ha1 o ho).2⟩)
          hf1 hok]
      rfl
    refine ⟨p2 ++ [.impT], v2 ++ [t1], ?_, ?_, ?_⟩
    · simp only [List.append_eq] at *
      rw [processToks_append, hp1]
      simp only [eb_ok]
      simp only [processToks, hstep, eb_eq, eb_ok, hp2]
      simp [List.append_assoc]
    · intro o ho
      rcases List.mem_append.mp ho with h3 | h3
      · exact ⟨(ha2 o h3).1, (ha2 o h3).2⟩
      · simp only [List.mem_singleton] at h3
        subst h3
        exact ⟨by simp, by simp [prec]⟩
    · rw [flushSeq_append, flushSeq_frame p2 v2 [t2] [t1] hf2]
      rfl

/-- `_parse_internal` of any well-formed token sequence returns its tree. -/
theorem gram_parse {ts : List Tok} {t : Expr} (h : Gram 10 ts t) :
    parseToks ts = .ok (some t) := by
  obtain ⟨pend, pvs, hp, hall, hf⟩ := gram_process h [] [] trivial
  unfold parseToks
  rw [hp]
  simp only [List.append_nil, eb_eq, eb_ok]
  rw [finalReduce_flush pend pvs [t] (fun o ho => (hall o ho).1) hf]
  rfl

/--
C2 (amended): `parse` always terminates, but it is not exception-free — on
malformed input it raises `IndexError` (stack underflow, e.g. `")"` or `"∧"`)
or `KeyError` (an unmatched `"("` reaching the final reduction loop).  For
every input string whose token sequence forms a well-formed formula, the call
terminates normally and returns the formula's expression tree.
-/
theorem c2_parse_total_on_wellformed (s : String) (t : Expr)
    (h : Gram 10 (tokenise s) t) : parseStr s = .ok (some t) :=
  gram_parse h

/-- Witness for C2 (amended) on the well-formed input `"P∧Q"`. -/
theorem c2_parse_total_on_wellformed_witness :
    Gram 10 (tokenise "P∧Q") (.Conjunction (.Variable "Q") (.Variable "P")) ∧
    parseStr "P∧Q" = .ok (some (.Conjunction (.Variable "Q") (.Variable "P"))) := by
  have htk : tokenise "P∧Q" = [.varT "P", .opT .andT, .varT "Q"] := by decide
  have hg : Gram 10 (tokenise "P∧Q") (.Conjunction (.Variable "Q") (.Variable "P")) := by
    rw [htk]
    exact Gram.weaken10 (Gram.weaken20
      (Gram.andG (Gram.var "P") (Gram.weaken30 (Gram.var "Q"))))
  exact ⟨hg, c2_parse_total_on_wellformed "P∧Q" _ hg⟩

/--
C6 (amended): the numeric precedences are negation 40 > conjunction 30 >
disjunction 20 > implication 10, and on every parenthesis-free input string
whose tokens form a well-formed formula, `parse` returns exactly the tree of
the precedence grammar `Gram` — in which each binary rule recurses at the
same level on the right operand, so equal-precedence ties associate to the
*right* (the strict `>` comparison never reduces a tie), not to the left.
-/
theorem c6_precedence_grammar (s : String) (t : Expr)
    (hnp : ∀ c ∈ s.toList, c ≠ '(' ∧ c ≠ ')')
    (h : Gram 10 (tokenise s) t) :
    prec .notT = 40 ∧ prec .andT = 30 ∧ prec .orT = 20 ∧ prec .impT = 10 ∧
    parseStr s = .ok (some t) :=
  ⟨rfl, rfl, rfl, rfl, gram_parse h⟩

/-- Witness for C6 (amended) on `"P∧Q∧R"`, whose tie groups to the right:
the tree is `Conjunction(Conjunction(R, Q), P)`, textually `P∧(Q∧R)`. -/
theorem c6_precedence_grammar_witness :
    (∀ c ∈ ("P∧Q∧R").toList, c ≠ '(' ∧ c ≠ ')') ∧
    Gram 10 (tokenise "P∧Q∧R")
      (.Conjunction (.Conjunction (.Variable "R") (.Variable "Q")) (.Variable "P")) ∧
    parseStr "P∧Q∧R" =
      .ok (some (.Conjunction (.Conjunction (.Variable "R") (.Variable "Q"))
        (.Variable "P"))) := by
  have htk : tokenise "P∧Q∧R" =
      [.varT "P", .opT .andT, .varT "Q", .opT .andT, .varT "R"] := by decide
  have hnp : ∀ c ∈ ("P∧Q∧R").toList, c ≠ '(' ∧ c ≠ ')' := by decide
  have hg : Gram 10 (tokenise "P∧Q∧R")
      (.Conjunction (.Conjunction (.Variable "R") (.Variable "Q")) (.Variable "P")) := by
    rw [htk]
    exact Gram.weaken10 (Gram.weaken20
      (Gram.andG (Gram.var "P")
        (Gram.andG (Gram.var "Q") (Gram.weaken30 (Gram.var "R")))))
  exact ⟨hnp, hg, (c6_precedence_grammar "P∧Q∧R" _ hnp hg).2.2.2.2⟩

/-! ## The stringify round trip (C9) -/

/-- Goodness of a token: a parser token is either an operator or a variable
whose identifier is one alphabetic character. -/
def tokGood : Tok → Bool
  | .varT s =>
    match s.toList with
    | [c] => goodChar c
    | _ => false
  | _ => true

theorem tokenise_good (s : String) : ∀ tk ∈ tokenise s, tokGood tk = true := by
  intro tk htk
  obtain ⟨c, _, hc⟩ := List.mem_filterMap.mp htk
  unfold tokChar at hc
  split_ifs at hc with h1 h2 h3 h4 h5 h6 h7
  · injection hc with hc2; rw [← hc2]; rfl
  · injection hc with hc2; rw [← hc2]; rfl
  · injection hc with hc2; rw [← hc2]; rfl
  · injection hc with hc2; rw [← hc2]; rfl
  · injection hc with hc2; rw [← hc2]; rfl
  · injection hc with hc2; rw [← hc2]; rfl
  · injection hc with hc2
    rw [← hc2]
    exact h7

theorem applyOp_good (o : OpT) (vs vs2 : VStack)
    (hg : ∀ v ∈ vs, goodExpr v = true) (h : applyOp o vs = some vs2) :
    ∀ v ∈ vs2, goodExpr v = true := by
  cases o
  case lparT => simp [applyOp] at h
  case notT =>
    rcases vs with _ | ⟨a, tl⟩
    · simp [applyOp] at h
    · simp only [applyOp, Option.some.injEq] at h
      rw [← h]
      intro v hv
      rcases List.mem_cons.mp hv with h2 | h2
      · rw [h2]
        have := hg a (by simp)
        simp [goodExpr, this]
      · exact hg v (List.mem_cons_of_mem a h2)
  case andT =>
    rcases vs with _ | ⟨a, _ | ⟨b, tl⟩⟩
    · simp [applyOp] at h
    · simp [applyOp] at h
    · simp only [applyOp, Option.some.injEq] at h
      rw [← h]
      intro v hv
      rcases List.mem_cons.mp hv with h2 | h2
      · rw [h2]
        have ha := hg a (by simp)
        have hb := hg b (by simp)
        simp [goodExpr, ha, hb]
      · exact hg v (List.mem_cons_of_mem a (List.mem_cons_of_mem b h2))
  case orT =>
    rcases vs with _ | ⟨a, _ | ⟨b, tl⟩⟩
    · simp [applyOp] at h
    · simp [applyOp] at h
    · simp only [applyOp, Option.some.injEq] at h
      rw [← h]
      intro v hv
      rcases List.mem_cons.mp hv with h2 | h2
      · rw [h2]
        have ha := hg a (by simp)
        have hb := hg b (by simp)
        simp [goodExpr, ha, hb]
      · exact hg v (List.mem_cons_of_mem a (List.mem_cons_of_mem b h2))
  case impT =>
    rcases vs with _ | ⟨a, _ | ⟨b, tl⟩⟩
    · simp [applyOp] at h
    · simp [applyOp] at h
    · simp only [applyOp, Option.some.injEq] at h
      rw [← h]
      intro v hv
      rcases List.mem_cons.mp hv with h2 | h2
      · rw [h2]
        have ha := hg a (by simp)
        have hb := hg b (by simp)
        simp [goodExpr, ha, hb]
      · exact hg v (List.mem_cons_of_mem a (List.mem_cons_of_mem b h2))

theorem rul_good : ∀ (ops : OStack) (vs : VStack) (ops2 : OStack) (vs2 : VStack),
    (∀ v ∈ vs, goodExpr v = true) →
    reduceUntilLParen ops vs = .ok (ops2, vs2) →
    ∀ v ∈ vs2, goodExpr v = true := by
  intro ops
  induction ops with
  | nil => intro vs ops2 vs2 _ h; exact absurd h (by simp [reduceUntilLParen])
  | cons o rest ih =>
    intro vs ops2 vs2 hg h
    by_cases ho : o = OpT.lparT
    · simp only [reduceUntilLParen, if_pos ho, Except.ok.injEq, Prod.mk.injEq] at h
      rw [← h.2]; exact hg
    · simp only [reduceUntilLParen, if_neg ho] at h
      cases h1 : applyOp o vs with
      | none => rw [h1] at h; exact absurd h (by simp)
      | some vs1 =>
        rw [h1] at h
        exact ih vs1 ops2 vs2 (applyOp_good o vs vs1 hg h1) h

theorem rwh_good (p : Nat) : ∀ (ops : OStack) (vs : VStack) (ops2 : OStack) (vs2 : VStack),
    (∀ v ∈ vs, goodExpr v = true) →
    reduceWhileHigher p ops vs = .ok (ops2, vs2) →
    ∀ v ∈ vs2, goodExpr v = true := by
  intro ops
  induction ops with
  | nil =>
    intro vs ops2 vs2 hg h
    simp only [reduceWhileHigher, Except.ok.injEq, Prod.mk.injEq] at h
    rw [← h.2]; exact hg
  | cons o rest ih =>
    intro vs ops2 vs2 hg h
    by_cases ho : o = OpT.lparT
    · simp only [reduceWhileHigher, if_pos ho, Except.ok.injEq, Prod.mk.injEq] at h
      rw [← h.2]; exact hg
    · by_cases hp : prec o > p
      · simp only [reduceWhileHigher, if_neg ho, if_pos hp] at h
        cases h1 : applyOp o vs with
        | none => rw [h1] at h; exact absurd h (by simp)
        | some vs1 =>
          rw [h1] at h
          exact ih vs1 ops2 vs2 (applyOp_good o vs vs1 hg h1) h
      · simp only [reduceWhileHigher, if_neg ho, if_neg hp, Except.ok.injEq,
          Prod.mk.injEq] at h
        rw [← h.2]; exact hg

theorem finalReduce_good : ∀ (ops : OStack) (vs out : VStack),
    (∀ v ∈ vs, goodExpr v = true) →
    finalReduce ops vs = .ok out →
    ∀ v ∈ out, goodExpr v = true := by
  intro ops
  induction ops with
  | nil =>
    intro vs out hg h
    simp only [finalReduce, Except.ok.injEq] at h
    rw [← h]; exact hg
  | cons o rest ih =>
    intro vs out hg h
    by_cases ho : o = OpT.lparT
    · simp [finalReduce, if_pos ho] at h
    · simp only [finalReduce, if_neg ho] at h
      cases h1 : applyOp o vs with
      | none => rw [h1] at h; exact absurd h (by simp)
      | some vs1 =>
        rw [h1] at h
        exact ih vs1 out (applyOp_good o vs vs1 hg h1) h

theorem step_good (st : OStack × VStack) (tk : Tok) (st2 : OStack × VStack)
    (htk : tokGood tk = true) (hg : ∀ v ∈ st.2, goodExpr v = true)
    (h : step st tk = .ok st2) : ∀ v ∈ st2.2, goodExpr v = true := by
  cases tk with
  | varT s =>
    simp only [step, Except.ok.injEq] at h
    rw [← h]
    intro v hv
    rcases List.mem_cons.mp hv with h2 | h2
    · rw [h2]
      exact htk
    · exact hg v h2
  | rparT =>
    simp only [step] at h
    obtain ⟨ops2, vs2⟩ := st2
    exact rul_good st.1 st.2 ops2 vs2 hg h
  | opT o =>
    cases o
    case lparT =>
      simp only [step, Except.ok.injEq] at h
      rw [← h]; exact hg
    all_goals
      simp only [step, eb_eq] at h
      cases h1 : reduceWhileHigher (prec _) st.1 st.2 with
      | error e1 => rw [h1] at h; exact absurd h (by simp [eb_err])
      | ok st1 =>
        rw [h1] at h
        simp only [eb_ok, Except.ok.injEq] at h
        rw [← h]
        exact rwh_good _ st.1 st.2 st1.1 st1.2 hg h1

theorem processToks_good : ∀ (ts : List Tok) (st st2 : OStack × VStack),
    (∀ tk ∈ ts, tokGood tk = true) →
    (∀ v ∈ st.2, goodExpr v = true) →
    processToks ts st = .ok st2 →
    ∀ v ∈ st2.2, goodExpr v = true := by
  intro ts
  induction ts with
  | nil =>
    intro st st2 _ hg h
    simp only [processToks, Except.ok.injEq] at h
    rw [← h]; exact hg
  | cons tk rest ih =>
    intro st st2 hts hg h
    simp only [processToks, eb_eq] at h
    cases h1 : step st tk with
    | error e1 => rw [h1] at h; exact absurd h (by simp [eb_err])
    | ok st1 =>
      rw [h1] at h
      simp only [eb_ok] at h
      exact ih st1 st2 (fun tk2 htk2 => hts tk2 (List.mem_cons_of_mem tk htk2))
        (step_good st tk st1 (hts tk (List.mem_cons_self tk rest)) hg h1) h

/-- Every tree the parser returns is `goodExpr`: constant-free, with
single-alphabetic-character variable identifiers. -/
theorem parse_good (s : String) (t : Expr) (h : parseStr s = .ok (some t)) :
    goodExpr t = true := by
  unfold parseStr parseToks at h
  cases h1 : processToks (tokenise s) ([], []) with
  | error e1 => rw [h1] at h; exact absurd h (by simp [eb_eq, eb_err])
  | ok st1 =>
    rw [h1] at h
    simp only [eb_eq, eb_ok] at h
    cases h2 : finalReduce st1.1 st1.2 with
    | error e2 => rw [h2] at h; exact absurd h (by simp [eb_eq, eb_err])
    | ok out =>
      rw [h2] at h
      simp only [eb_eq, eb_ok, Except.ok.injEq] at h
      have hgood : ∀ v ∈ out, goodExpr v = true :=
        finalReduce_good st1.1 st1.2 out
          (processToks_good (tokenise s) ([], []) st1 (tokenise_good s)
            (by simp) h1) h2
      exact hgood t (List.mem_of_mem_head? h)

/-- `stringify` returns a string on every good (constant-free) tree. -/
theorem good_stringify : ∀ (t : Expr), goodExpr t = true →
    ∃ str, stringifyM t = some str := by
  intro t hg
  cases t with
  | Const b => exact absurd hg (by simp [goodExpr])
  | Variable v => exact ⟨v, rfl⟩
  | Conjunction l r => exact ⟨_, rfl⟩
  | Disjunction l r => exact ⟨_, rfl⟩
  | Implication concl prem => exact ⟨_, rfl⟩
  | Negation e => exact ⟨_, rfl⟩

theorem tokenise_append (a b : String) :
    tokenise (a ++ b) = tokenise a ++ tokenise b := by
  unfold tokenise
  have h : (a ++ b).toList = a.toList ++ b.toList := by simp [String.toList]
  rw [h, List.filterMap_append]

theorem singleton_good_tokenise (s : String) (c : Char) (hc : s.toList = [c])
    (hg : goodChar c = true) : tokenise s = [.varT s] := by
  have hs : s = String.singleton c := by
    cases s with
    | mk data =>
      simp only [String.toList] at hc
      subst hc
      rfl
  subst hs
  have hglyph : ∀ g : Char, g ∈ (['∧', '∨', '→', '¬', '(', ')'] : List Char) → c ≠ g := by
    intro g hgl hceq
    subst hceq
    simp only [goodChar] at hg
    fin_cases hgl <;> simp at hg
  unfold tokenise tokChar
  simp only [show (String.singleton c).toList = [c] from rfl]
  rw [List.filterMap_cons]
  simp only [if_neg (hglyph '∧' (by simp)), if_neg (hglyph '∨' (by simp)),
    if_neg (hglyph '→' (by simp)), if_neg (hglyph '¬' (by simp)),
    if_neg (hglyph '(' (by simp)), if_neg (hglyph ')' (by simp)),
    if_pos (show c.isAlpha = true from hg)]
  rfl

/--
Re-parsing `stringify(t)` from any parser state pushes exactly `mirror t`:
each printed composite is fully parenthesised, so the `(` on top of the
operator stack shields the surrounding state, and the closing `)` reduces the
printed operator over the two recursively pushed operands — popping the most
recently pushed (the printed `rhs`) into the new node's `lhs`.
-/
theorem reparse_core : ∀ (t : Expr), goodExpr t = true →
    ∀ (str : String), stringifyM t = some str →
    ∀ (ops : OStack) (vs : VStack),
    processToks (tokenise str) (ops, vs) = .ok (ops, mirror t :: vs) := by
  intro t
  induction t with
  | Const b => intro hg; exact absurd hg (by simp [goodExpr])
  | Variable v =>
    intro hg str hstr ops vs
    simp only [stringifyM, Option.some.injEq] at hstr
    subst hstr
    have hg2 : ∃ c, v.toList = [c] ∧ goodChar c = true := by
      simp only [goodExpr] at hg
      rcases hv : v.toList with _ | ⟨c, _ | ⟨c2, tl⟩⟩ <;> rw [hv] at hg
      · simp at hg
      · exact ⟨c, rfl, hg⟩
      · simp at hg
    obtain ⟨c, hv, hcg⟩ := hg2
    rw [singleton_good_tokenise v c hv hcg]
    rfl
  | Negation e ih =>
    intro hg str hstr ops vs
    simp only [goodExpr] at hg
    obtain ⟨se, hse⟩ := good_stringify e hg
    simp only [stringifyM, hse, pyStr, Option.some.injEq] at hstr
    subst hstr
    simp only [tokenise_append]
    rw [show tokenise "(¬" = [.opT .lparT, .opT .notT] from rfl,
      show tokenise ")" = [.rparT] from rfl]
    simp only [processToks_append]
    rw [show processToks [.opT .lparT, .opT .notT] (ops, vs) =
      .ok (.notT :: .lparT :: ops, vs) from by
        simp [processToks, step, reduceWhileHigher, eb_eq, eb_ok]]
    simp only [eb_ok]
    rw [ih hg se hse (.notT :: .lparT :: ops) vs]
    simp only [eb_ok]
    simp [processToks, step, reduceUntilLParen, applyOp, eb_eq, eb_ok, mirror]
  | Conjunction l r ihl ihr =>
    intro hg str hstr ops vs
    simp only [goodExpr, Bool.and_eq_true] at hg
    obtain ⟨sl, hsl⟩ := good_stringify l hg.1
    obtain ⟨sr, hsr⟩ := good_stringify r hg.2
    simp only [stringifyM, hsl, hsr, pyStr, Option.some.injEq] at hstr
    subst hstr
    simp only [tokenise_append]
    rw [show tokenise "(" = [.opT .lparT] from rfl,
      show tokenise " ∧ " = [.opT .andT] from rfl,
      show tokenise ")" = [.rparT] from rfl]
    simp only [processToks_append]
    rw [show processToks [.opT .lparT] (ops, vs) = .ok (.lparT :: ops, vs) from rfl]
    simp only [eb_ok]
    rw [ihl hg.1 sl hsl (.lparT :: ops) vs]
    simp only [eb_ok]
    rw [show processToks [.opT .andT] (.lparT :: ops, mirror l :: vs) =
      .ok (.andT :: .lparT :: ops, mirror l :: vs) from by
        simp [processToks, step, reduceWhileHigher, eb_eq, eb_ok]]
    simp only [eb_ok]
    rw [ihr hg.2 sr hsr (.andT :: .lparT :: ops) (mirror l :: vs)]
    simp only [eb_ok]
    simp [processToks, step, reduceUntilLParen, applyOp, eb_eq, eb_ok, mirror]
  | Disjunction l r ihl ihr =>
    intro hg str hstr ops vs
    simp only [goodExpr, Bool.and_eq_true] at hg
    obtain ⟨sl, hsl⟩ := good_stringify l hg.1
    obtain ⟨sr, hsr⟩ := good_stringify r hg.2
    simp only [stringifyM, hsl, hsr, pyStr, Option.some.injEq] at hstr
    subst hstr
    simp only [tokenise_append]
    rw [show tokenise "(" = [.opT .lparT] from rfl,
      show tokenise " ∨ " = [.opT .orT] from rfl,
      show tokenise ")" = [.rparT] from rfl]
    simp only [processToks_append]
    rw [show processToks [.opT .lparT] (ops, vs) = .ok (.lparT :: ops, vs) from rfl]
    simp only [eb_ok]
    rw [ihl hg.1 sl hsl (.lparT :: ops) vs]
    simp only [eb_ok]
    rw [show processToks [.opT .orT] (.lparT :: ops, mirror l :: vs) =
      .ok (.orT :: .lparT :: ops, mirror l :: vs) from by
        simp [processToks, step, reduceWhileHigher, eb_eq, eb_ok]]
    simp only [eb_ok]
    rw [ihr hg.2 sr hsr (.orT :: .lparT :: ops) (mirror l :: vs)]
    simp only [eb_ok]
    simp [processToks, step, reduceUntilLParen, applyOp, eb_eq, eb_ok, mirror]
  | Implication concl prem ihc ihp =>
    intro hg str hstr ops vs
    simp only [goodExpr, Bool.and_eq_true] at hg
    obtain ⟨sp, hsp⟩ := good_stringify prem hg.2
    obtain ⟨sc, hsc⟩ := good_stringify concl hg.1
    simp only [stringifyM, hsp, hsc, pyStr, Option.some.injEq] at hstr
    subst hstr
    simp only [tokenise_append]
    rw [show tokenise "(" = [.opT .lparT] from rfl,
      show tokenise " → " = [.opT .impT] from rfl,
      show tokenise ")" = [.rparT] from rfl]
    simp only [processToks_append]
    rw [show processToks [.opT .lparT] (ops, vs) = .ok (.lparT :: ops, vs) from rfl]
    simp only [eb_ok]
    rw [ihp hg.2 sp hsp (.lparT :: ops) vs]
    simp only [eb_ok]
    rw [show processToks [.opT .impT] (.lparT :: ops, mirror prem :: vs) =
      .ok (.impT :: .lparT :: ops, mirror prem :: vs) from by
        simp [processToks, step, reduceWhileHigher, eb_eq, eb_ok]]
    simp only [eb_ok]
    rw [ihc hg.1 sc hsc (.impT :: .lparT :: ops) (mirror prem :: vs)]
    simp only [eb_ok]
    simp [processToks, step, reduceUntilLParen, applyOp, eb_eq, eb_ok, mirror]

/--
C9 (amended): for every input whose parse returns a tree `t`, `stringify(t)`
is a string whose re-parse returns not `t` itself but `mirror t` — the tree
with the operand fields of every `Conjunction` and `Disjunction` swapped
(`stringify` prints `lhs` first while the parser pops the most recent operand
into `lhs`; `Implication` survives because its printing order and its field
order perform the same swap twice).  The round trip is exact exactly when `t`
has no `Conjunction` or `Disjunction` with distinct operands.
-/
theorem c9_round_trip_mirrors (text : String) (t : Expr)
    (h : parseStr text = .ok (some t)) :
    ∃ str, stringifyM t = some str ∧ parseStr str = .ok (some (mirror t)) := by
  have hg : goodExpr t = true := parse_good text t h
  obtain ⟨str, hs⟩ := good_stringify t hg
  refine ⟨str, hs, ?_⟩
  unfold parseStr parseToks
  rw [reparse_core t hg str hs [] []]
  rfl

/-- Witness for C9 (amended) at `text = "P∧Q"`. -/
theorem c9_round_trip_mirrors_witness :
    parseStr "P∧Q" = .ok (some (.Conjunction (.Variable "Q") (.Variable "P"))) ∧
    ∃ str, stringifyM (.Conjunction (.Variable "Q") (.Variable "P")) = some str ∧
      parseStr str =
        .ok (some (mirror (.Conjunction (.Variable "Q") (.Variable "P")))) :=
  ⟨by decide,
   c9_round_trip_mirrors "P∧Q" (.Conjunction (.Variable "Q") (.Variable "P"))
     (by decide)⟩

end Veracity